/-
Verification of the `strdistmatch` multi-setter engine
(repository nickwells/strdisttools, file strdistmatch/multiSetter.go).

A shallow embedding in Lean 4.  Strings are modelled as `List Char`
(abbreviated `Str`), Go maps as association lists with explicit lookup,
and the mutable `EntryVal` scratch record as explicitly threaded state.
Fallible Go functions returning `error` are modelled with `Option MSError`
(`none` = nil error), mirroring Go's (value, error) return convention.
-/
import Mathlib

set_option linter.unusedVariables false

/-- Strings are modelled as lists of characters. -/
abbrev Str := List Char

/-- Convert a Lean string literal to the `Str` model type. -/
def chars (s : String) : Str := s.toList

/-- Character class of the Go regexp `\s` (RE2: `[\t\n\f\r ]`). -/
def isSpaceChar (c : Char) : Bool :=
  c == '\t' || c == '\n' || c == '\x0c' || c == '\r' || c == ' '

/-- Character class `[_a-zA-Z]`, the first character of a sub-value key
(regexp fragment `keyRE` in multiSetter.go). -/
def isKeyStart (c : Char) : Bool :=
  c == '_' || (decide ('a' ≤ c) && decide (c ≤ 'z')) ||
    (decide ('A' ≤ c) && decide (c ≤ 'Z'))

/-- Character class `[_a-zA-Z0-9]`, the remaining characters of a key. -/
def isKeyChar (c : Char) : Bool :=
  isKeyStart c || (decide ('0' ≤ c) && decide (c ≤ '9'))

/-- Whole-string identifier grammar of §3 of the specification: first
character a letter or underscore, every remaining character a letter,
digit or underscore.  (This is the full-match language of `keyRE`.) -/
def isIdentKey : Str → Bool
  | [] => false
  | c :: rest => isKeyStart c && rest.all isKeyChar

/-- Go `strings.Cut(s, "=")`: the text before the first `=`, the text
after it, and whether an `=` was found. -/
def cutEq : Str → Str × Str × Bool
  | [] => ([], [], false)
  | c :: cs =>
    if c = '=' then ([], cs, true)
    else
      let r := cutEq cs
      (c :: r.1, r.2.1, r.2.2)

/-- Go `strings.HasPrefix(s, pre)`. -/
def hasPre : Str → Str → Bool
  | _, [] => true
  | [], _ :: _ => false
  | c :: cs, p :: ps => c == p && hasPre cs ps

/-- Go `strings.TrimPrefix(s, pre)`. -/
def trimPre (s pre : Str) : Str :=
  if hasPre s pre then s.drop pre.length else s

/-- Go `strings.Cut(s, sep)` (general form; used only to extract the text
preceding the first occurrence of a matched sub-value). -/
def cutAt : Str → Str → Str × Str × Bool
  | s, sep =>
    match s with
    | [] => ([], [], sep.isEmpty)
    | c :: rest =>
      if hasPre (c :: rest) sep then ([], (c :: rest).drop sep.length, true)
      else
        let r := cutAt rest sep
        (c :: r.1, r.2.1, r.2.2)

/-- Association-list lookup, modelling Go map indexing `m[k]`. -/
def alLookup {α : Type} : List (Str × α) → Str → Option α
  | [], _ => none
  | (k, v) :: rest, key => if k = key then some v else alLookup rest key

/-- Association-list insertion, modelling Go map assignment `m[k] = v`
(overwrites an existing binding, otherwise appends). -/
def mapInsert {α : Type} : List (Str × α) → Str → α → List (Str × α)
  | [], k, v => [(k, v)]
  | (k', v') :: rest, k, v =>
    if k' = k then (k, v) :: rest else (k', v') :: mapInsert rest k v

/-!
## The tokenizer

`subValueRE = \s*([_a-zA-Z][_a-zA-Z0-9]*)\s*=\s*"([^"]*)"\s*`.

Every quantified sub-pattern of this regexp is a greedy run over a
character class disjoint from the character required next, so
leftmost-first matching (Perl-style, as used by Go's
`regexp.MustCompile`) at a given start position is exactly
maximal-munch scanning; `matchAt` implements it.
-/

/-- Match `subValueRE` at the very start of `cs`.  Returns
`(whole match, key capture, value capture, remainder)`. -/
def matchAt (cs : Str) : Option (Str × Str × Str × Str) :=
  match cs.dropWhile isSpaceChar with
  | [] => none
  | c :: r2 =>
    if isKeyStart c then
      match (r2.dropWhile isKeyChar).dropWhile isSpaceChar with
      | '=' :: r5 =>
        match r5.dropWhile isSpaceChar with
        | '"' :: r7 =>
          match r7.dropWhile (fun c => c != '"') with
          | '"' :: r9 =>
            some (cs.takeWhile isSpaceChar ++
                    (c :: r2.takeWhile isKeyChar) ++
                    (r2.dropWhile isKeyChar).takeWhile isSpaceChar ++
                    '=' :: r5.takeWhile isSpaceChar ++
                    '"' :: r7.takeWhile (fun c => c != '"') ++
                    '"' :: r9.takeWhile isSpaceChar,
                  c :: r2.takeWhile isKeyChar,
                  r7.takeWhile (fun c => c != '"'),
                  r9.dropWhile isSpaceChar)
          | _ => none
        | _ => none
      | _ => none
    else none

/-- The scan loop of `FindAllStringSubmatch` with explicit fuel (the
fuel is only a termination device; `findAllSub` supplies enough of it
that it never runs out). -/
def findAllGo : Nat → Str → List (Str × Str × Str)
  | 0, _ => []
  | fuel + 1, cs =>
    match matchAt cs with
    | some (w, k, v, rem) => (w, k, v) :: findAllGo fuel rem
    | none =>
      match cs with
      | [] => []
      | _ :: rest => findAllGo fuel rest

/-- Go `subValueRE.FindAllStringSubmatch(cs, -1)`: scan start positions
left to right; at each position take the (deterministic) match if one
starts there, record `(whole, key, value)` and continue after it,
otherwise advance one character. -/
def findAllSub (cs : Str) : List (Str × Str × Str) :=
  findAllGo (cs.length + 1) cs

/-!
## Data model (multiSetter.go)

`param.Setter.SetWithVal` is a capability that converts/validates a raw
string and mutates one slot of the scratch record; it is modelled as a
pure function from (sub-value name, raw value, record) to an updated
record or an error string.  A `MultiSetterActionFunc` likewise becomes a
function returning an optional error string.  The external fuzzy-match
finder (`strdist.DefaultFinders[...].FindNStrLike`, out of scope per §1
of the specification) is an uninterpreted function kept as a field of
the configuration.
-/

/-- multiSetter.go `EntryValSetter`: the field descriptor for one
canonical sub-value key. -/
structure EntryValSetter (T : Type) where
  setWithVal : Str → Str → T → Except Str T
  postActionFuncs : List (Str → Str → Option Str)
  mustBeSet : Bool

/-- The Go zero value `EntryValSetter{}` returned by `getSetter` on
failure (its nil `Setter` is never invoked). -/
def nilEntryValSetter (T : Type) : EntryValSetter T where
  setWithVal := fun _ _ _ => Except.error (chars "nil setter")
  postActionFuncs := []
  mustBeSet := false

/-- The distinct error outcomes of `GetNamedValue` and its callees; each
constructor records the data interpolated into the corresponding Go
error message.  Ordinal arguments are 1-based, as printed by Go
(`i+1` with `english.OrdinalSuffix`). -/
inductive MSError where
  | emptyName : MSError
  | badName (name : Str) (alts : List Str) : MSError
  | cannotGetValues (val : Str) : MSError
  | unexpectedTextBefore (badVal : Str) (ordinal : Nat) (entry : Str) :
      MSError
  | badSubValueName (evKey : Str) (ordinal : Nat) (alts : List Str) :
      MSError
  | duplicateSubValue (evKey : Str) (prevVal : Str) (curVal : Str)
      (ordinal : Nat) : MSError
  | setterError (e : Str) : MSError
  | postActionError (e : Str) : MSError
  | mustBeSetError (evKey : Str) : MSError
  | unexpectedTrailingText (val : Str) : MSError
deriving DecidableEq

/-- multiSetter.go `NamedValue[S, T]` (with `S` fixed to the string
model). -/
structure NamedValue (T : Type) where
  name : Str
  value : T
deriving DecidableEq

/-- The Go zero value `NamedValue[S, T]{}` returned alongside every
error. -/
def zeroNamedValue (T : Type) [Inhabited T] : NamedValue T :=
  { name := [], value := default }

/-- multiSetter.go `MultiSetterBase[S, T]`.  `EntryVal` is the scratch
record reused across calls; maps become association lists.  `AVals` maps
an allowed name to its description.  `findNStrLike` stands for the
external fuzzy-match capability used by `SuggestAlternatives`. -/
structure MultiSetterBase (T : Type) where
  dfltEntryVal : T
  entryVal : T
  entryValSetterMap : List (Str × EntryValSetter T)
  avals : List (Str × Str)
  entryValSMAliases : List (Str × Str)
  findNStrLike : Nat → Str → List Str → List Str

/-- multiSetter.go `maxAltNames`. -/
def maxAltNames : Nat := 3

/-- suggestAlts.go `SuggestAlternatives`, reduced to the list of
alternatives it obtains from `FindNStrLike` (Go then formats the
non-empty list into a ", did you mean ..." message). -/
def suggestAlternatives (finder : Nat → Str → List Str → List Str)
    (n : Nat) (s : Str) (pop : List Str) : List Str :=
  finder n s pop

/-- multiSetter.go `MultiSetterBase.checkParamPartName`. -/
def checkParamPartName {T : Type} (s : MultiSetterBase T) (name : Str) :
    Option MSError :=
  if name = [] then some MSError.emptyName
  else if 0 < s.avals.length then
    if (alLookup s.avals name).isSome then none
    else
      some (MSError.badName name
        (suggestAlternatives s.findNStrLike maxAltNames name
          (s.avals.map Prod.fst)))
  else none

/-- multiSetter.go `MultiSetterBase.getSetter`: resolve a raw sub-value
key, first as a canonical key of `EntryValSetterMap`, then through
`EntryValSMAliases`; on failure report the 1-based ordinal and the
fuzzy alternatives drawn from the union of canonical and alias keys. -/
def getSetter {T : Type} (s : MultiSetterBase T) (i : Nat) (evKey : Str) :
    Str × EntryValSetter T × Option MSError :=
  match alLookup s.entryValSetterMap evKey with
  | some evs => (evKey, evs, none)
  | none =>
    match alLookup s.entryValSMAliases evKey with
    | some aliasKey =>
      match alLookup s.entryValSetterMap aliasKey with
      | some evs => (aliasKey, evs, none)
      | none =>
        (evKey, nilEntryValSetter T,
          some (MSError.badSubValueName evKey (i + 1)
            (suggestAlternatives s.findNStrLike maxAltNames evKey
              (s.entryValSetterMap.map Prod.fst ++
                s.entryValSMAliases.map Prod.fst))))
    | none =>
      (evKey, nilEntryValSetter T,
        some (MSError.badSubValueName evKey (i + 1)
          (suggestAlternatives s.findNStrLike maxAltNames evKey
            (s.entryValSetterMap.map Prod.fst ++
              s.entryValSMAliases.map Prod.fst))))

/-- The `for _, f := range evs.PostActionFuncs` loop of
`setWithSubval`: run each post-action in order, stopping at the first
error. -/
def runPostActions : List (Str → Str → Option Str) → Str → Str →
    Option Str
  | [], _, _ => none
  | f :: fs, k, v =>
    match f k v with
    | some e => some e
    | none => runPostActions fs k v

/-- multiSetter.go `MultiSetterBase.setWithSubval`.  The scratch record
is threaded explicitly as `t` (Go mutates `s.EntryVal` through the
setters' captured pointers).  `sv` is one `(whole, key, value)`
submatch; since `FindAllStringSubmatch` of `subValueRE` always yields
exactly `expectedRegexpSubmatchLength` parts, the Go
`len(sVal) != expectedRegexpSubmatchLength` branch is unreachable and
has no counterpart here.  Returns the updated record, the remaining
text, the updated `dups` map and the error, mirroring the Go
mutations. -/
def setWithSubval {T : Type} (s : MultiSetterBase T) (t : T)
    (wholeValue : Str) (i : Nat) (sv : Str × Str × Str)
    (dups : List (Str × Str)) :
    T × Str × List (Str × Str) × Option MSError :=
  let wholeSubValue := sv.1
  if hasPre wholeValue wholeSubValue = false then
    let badVal := (cutAt wholeValue wholeSubValue).1
    (t, wholeValue, dups,
      some (MSError.unexpectedTextBefore badVal (i + 1) wholeSubValue))
  else
    let wholeValue := trimPre wholeValue wholeSubValue
    match getSetter s i sv.2.1 with
    | (_, _, some e) => (t, wholeValue, dups, some e)
    | (evKey, evs, none) =>
      match alLookup dups evKey with
      | some prevVal =>
        (t, wholeValue, dups,
          some (MSError.duplicateSubValue evKey prevVal wholeSubValue
            (i + 1)))
      | none =>
        let dups := mapInsert dups evKey wholeSubValue
        match evs.setWithVal evKey sv.2.2 t with
        | Except.error e => (t, wholeValue, dups, some (MSError.setterError e))
        | Except.ok t' =>
          match runPostActions evs.postActionFuncs evKey sv.2.2 with
          | some e => (t', wholeValue, dups, some (MSError.postActionError e))
          | none => (t', wholeValue, dups, none)

/-- The `for i, sVal := range subValues` loop of `GetNamedValue`. -/
def processSubVals {T : Type} (s : MultiSetterBase T) (t : T)
    (wholeValue : Str) (i : Nat) (svs : List (Str × Str × Str))
    (dups : List (Str × Str)) :
    T × Str × List (Str × Str) × Option MSError :=
  match svs with
  | [] => (t, wholeValue, dups, none)
  | sv :: rest =>
    match setWithSubval s t wholeValue i sv dups with
    | (t', w', d', some e) => (t', w', d', some e)
    | (t', w', d', none) => processSubVals s t' w' (i + 1) rest d'

/-- The `for evKey, evs := range s.EntryValSetterMap` mandatory-field
check of `GetNamedValue`: the first canonical key (in table order) that
must be set but is absent from `dups`, if any. -/
def findUnsetMandatory {T : Type} :
    List (Str × EntryValSetter T) → List (Str × Str) → Option Str
  | [], _ => none
  | (k, evs) :: rest, dups =>
    if evs.mustBeSet && (alLookup dups k).isNone then some k
    else findUnsetMandatory rest dups

/-- multiSetter.go `MultiSetterBase.GetNamedValue`.  Returns the updated
receiver (its `EntryVal` is the only field ever written), the
`NamedValue` result and the error; on error the result is the zero
`NamedValue`, exactly as in Go. -/
def GetNamedValue {T : Type} [Inhabited T] (s : MultiSetterBase T)
    (paramVal : Str) : MultiSetterBase T × NamedValue T × Option MSError :=
  let c := cutEq paramVal
  let name := c.1
  let val := c.2.1
  let ok := c.2.2
  match checkParamPartName s name with
  | some e => (s, zeroNamedValue T, some e)
  | none =>
    if ok = false then
      (s, { name := name, value := s.dfltEntryVal }, none)
    else
      let subValues := findAllSub val
      if subValues.length = 0 then
        ({ s with entryVal := s.dfltEntryVal }, zeroNamedValue T,
          some (MSError.cannotGetValues val))
      else
        match processSubVals s s.dfltEntryVal val 0 subValues [] with
        | (t, _, _, some e) =>
          ({ s with entryVal := t }, zeroNamedValue T, some e)
        | (t, valRem, dups, none) =>
          match findUnsetMandatory s.entryValSetterMap dups with
          | some k =>
            ({ s with entryVal := t }, zeroNamedValue T,
              some (MSError.mustBeSetError k))
          | none =>
            if valRem.length ≠ 0 then
              ({ s with entryVal := t }, zeroNamedValue T,
                some (MSError.unexpectedTrailingText valRem))
            else
              ({ s with entryVal := t }, { name := name, value := t },
                none)

/-- multiSetter.go `MapMultiSetter` (the fields used only by the
configuration checks are omitted: no claim concerns them). -/
structure MapMultiSetter (T : Type) where
  value : List (Str × T)
  base : MultiSetterBase T

/-- multiSetter.go `MapMultiSetter.SetWithVal` (the unused first Go
argument is dropped): on success store `container[name] = value`,
otherwise return the error with the container untouched. -/
def MapMultiSetter.SetWithVal {T : Type} [Inhabited T]
    (s : MapMultiSetter T) (paramVal : Str) :
    MapMultiSetter T × Option MSError :=
  match GetNamedValue s.base paramVal with
  | (b, _, some e) => ({ value := s.value, base := b }, some e)
  | (b, nv, none) =>
    ({ value := mapInsert s.value nv.name nv.value, base := b }, none)

/-- multiSetter.go `ListMultiSetter` (configuration-check-only fields
omitted as above). -/
structure ListMultiSetter (T : Type) where
  value : List (NamedValue T)
  base : MultiSetterBase T

/-- multiSetter.go `ListMultiSetter.SetWithVal`: on success append the
`NamedValue` to the sequence, otherwise return the error with the
container untouched. -/
def ListMultiSetter.SetWithVal {T : Type} [Inhabited T]
    (s : ListMultiSetter T) (paramVal : Str) :
    ListMultiSetter T × Option MSError :=
  match GetNamedValue s.base paramVal with
  | (b, _, some e) => ({ value := s.value, base := b }, some e)
  | (b, nv, none) => ({ value := s.value ++ [nv], base := b }, none)

/-- Iterate `ListMultiSetter.SetWithVal` with the same parameter value
`n` times, stopping at the first error. -/
def iterListSet {T : Type} [Inhabited T] (s : ListMultiSetter T)
    (paramVal : Str) : Nat → ListMultiSetter T × Option MSError
  | 0 => (s, none)
  | n + 1 =>
    match s.SetWithVal paramVal with
    | (s', some e) => (s', some e)
    | (s', none) => iterListSet s' paramVal n

/-!
## Configuration check (the key-grammar part)

`checkEntryValSetters` tests each canonical key with
`evsKeyRE.MatchString(k)` where `evsKeyRE = [_a-zA-Z][_a-zA-Z0-9]*`.
Go's `Regexp.MatchString` reports whether the string CONTAINS a match
anywhere (the pattern is not anchored), and since the starred part may
match the empty string, `k` contains a match exactly when it contains
at least one `[_a-zA-Z]` character; the scan below computes that. -/
def evsKeyREMatchString : Str → Bool
  | [] => false
  | c :: rest => isKeyStart c || evsKeyREMatchString rest

/-- The per-key panic condition of the key-grammar check in
`MultiSetterBase.checkEntryValSetters` (lines 619-624): the check
panics on canonical key `k` exactly when this is `true`. -/
def keyCheckPanics (k : Str) : Bool := !evsKeyREMatchString k

/-!
## Specification-side definitions

These express the intended meaning of a parse in direct structural
terms, to be related to the engine above: a canonical rendering of an
assignment list as field-list text, the resolution of a raw key to its
canonical descriptor, and the sequential application of assignments to
a record.
-/

/-- Canonical rendering of one assignment: `key="value" ` (with a
single trailing space). -/
def renderAssign (kv : Str × Str) : Str :=
  kv.1 ++ '=' :: '"' :: kv.2 ++ ['"', ' ']

/-- Canonical rendering of an assignment list as field-list text. -/
def renderAssigns : List (Str × Str) → Str
  | [] => []
  | kv :: rest => renderAssign kv ++ renderAssigns rest

/-- A well-formed assignment: the key matches the identifier grammar
and the value contains no double quote. -/
def goodAssign (kv : Str × Str) : Bool :=
  isIdentKey kv.1 && kv.2.all (fun c => c != '"')

/-- The `(whole, key, value)` submatch that the tokenizer produces for
one canonically rendered assignment. -/
def mkSubMatch (kv : Str × Str) : Str × Str × Str :=
  (renderAssign kv, kv.1, kv.2)

/-- The success paths of `getSetter`: resolve a raw key to its
canonical key and field descriptor, directly first, then through the
alias table. -/
def resolveEvs {T : Type} (s : MultiSetterBase T) (k : Str) :
    Option (Str × EntryValSetter T) :=
  match alLookup s.entryValSetterMap k with
  | some evs => some (k, evs)
  | none =>
    match alLookup s.entryValSMAliases k with
    | some aliasKey =>
      match alLookup s.entryValSetterMap aliasKey with
      | some evs => some (aliasKey, evs)
      | none => none
    | none => none

/-- The canonical key a raw key resolves to, if any. -/
def resolveCanon {T : Type} (s : MultiSetterBase T) (k : Str) :
    Option Str :=
  (resolveEvs s k).map Prod.fst

/-- Sequential application of an assignment list to a record: resolve
each key, run its setter and then its post-action callbacks; `none` if
any resolution, setter or callback fails. -/
def applyAssigns {T : Type} (s : MultiSetterBase T) :
    List (Str × Str) → T → Option T
  | [], t => some t
  | kv :: rest, t =>
    match resolveEvs s kv.1 with
    | none => none
    | some (ck, evs) =>
      match evs.setWithVal ck kv.2 t with
      | Except.error _ => none
      | Except.ok t' =>
        match runPostActions evs.postActionFuncs ck kv.2 with
        | some _ => none
        | none => applyAssigns s rest t'

/-- The engine loop `processSubVals`, specialised to canonically
rendered input: the remaining text is tracked as the list of not yet
processed assignments. -/
def processRender {T : Type} (s : MultiSetterBase T) :
    T → Nat → List (Str × Str) → List (Str × Str) →
    T × List (Str × Str) × List (Str × Str) × Option MSError
  | t, _, [], d => (t, [], d, none)
  | t, i, kv :: rest, d =>
    match getSetter s i kv.1 with
    | (_, _, some e) => (t, rest, d, some e)
    | (ck, evs, none) =>
      match alLookup d ck with
      | some prev =>
        (t, rest, d,
          some (MSError.duplicateSubValue ck prev (renderAssign kv)
            (i + 1)))
      | none =>
        match evs.setWithVal ck kv.2 t with
        | Except.error e =>
          (t, rest, mapInsert d ck (renderAssign kv),
            some (MSError.setterError e))
        | Except.ok t' =>
          match runPostActions evs.postActionFuncs ck kv.2 with
          | some e =>
            (t', rest, mapInsert d ck (renderAssign kv),
              some (MSError.postActionError e))
          | none =>
            processRender s t' (i + 1) rest
              (mapInsert d ck (renderAssign kv))

/-- The `dups` map after successfully processing a rendered assignment
list. -/
def renderDups {T : Type} (s : MultiSetterBase T) :
    List (Str × Str) → List (Str × Str) → List (Str × Str)
  | [], d => d
  | kv :: rest, d =>
    match resolveCanon s kv.1 with
    | some ck => renderDups s rest (mapInsert d ck (renderAssign kv))
    | none => d

/-!
## Concrete fixtures

A concrete record type and configurations used to witness the general
theorems.  The record is the list of (canonical key, raw value) pairs
applied to it, so "the default record with exactly the assigned fields
updated" is directly observable.
-/

/-- A concrete record: the list of successfully applied assignments. -/
abbrev RecT := List (Str × Str)

/-- A field setter for `RecT` that appends the assignment it is given. -/
def recSetter : EntryValSetter RecT where
  setWithVal := fun k v t => Except.ok (t ++ [(k, v)])
  postActionFuncs := []
  mustBeSet := false

/-- As `recSetter` but mandatory (`MustBeSet`). -/
def recSetterMand : EntryValSetter RecT where
  setWithVal := fun k v t => Except.ok (t ++ [(k, v)])
  postActionFuncs := []
  mustBeSet := true

/-- A concrete fuzzy finder satisfying the black-box contract: the
first `n` candidates of the population. -/
def takeFinder : Nat → Str → List Str → List Str :=
  fun n _ pop => pop.take n

/-- Configuration with one optional field `k`. -/
def cfgK : MultiSetterBase RecT where
  dfltEntryVal := []
  entryVal := []
  entryValSetterMap := [(chars "k", recSetter)]
  avals := []
  entryValSMAliases := []
  findNStrLike := takeFinder

/-- Configuration with optional `k` and mandatory `m`. -/
def cfgKM : MultiSetterBase RecT where
  dfltEntryVal := []
  entryVal := []
  entryValSetterMap := [(chars "k", recSetter), (chars "m", recSetterMand)]
  avals := []
  entryValSMAliases := []
  findNStrLike := takeFinder

/-- Configuration with one mandatory field `k`. -/
def cfgM : MultiSetterBase RecT where
  dfltEntryVal := []
  entryVal := []
  entryValSetterMap := [(chars "k", recSetterMand)]
  avals := []
  entryValSMAliases := []
  findNStrLike := takeFinder

/-- Configuration with canonical `k`, alias `alias` for `k`, and a
second field `j`. -/
def cfgAlias : MultiSetterBase RecT where
  dfltEntryVal := []
  entryVal := []
  entryValSetterMap := [(chars "k", recSetter), (chars "j", recSetter)]
  avals := []
  entryValSMAliases := [(chars "alias", chars "k")]
  findNStrLike := takeFinder

/-- Configuration with an allow-list `{foo, bar}` and one field `k`. -/
def cfgAV : MultiSetterBase RecT where
  dfltEntryVal := []
  entryVal := []
  entryValSetterMap := [(chars "k", recSetter)]
  avals := [(chars "foo", chars "a foo"), (chars "bar", chars "a bar")]
  entryValSMAliases := []
  findNStrLike := takeFinder

/-- Map adapter over `cfgK` with an empty container. -/
def mapK : MapMultiSetter RecT where
  value := []
  base := cfgK

/-- List adapter over `cfgK` with an empty container. -/
def listK : ListMultiSetter RecT where
  value := []
  base := cfgK
/-!
## Lemmas and theorems
-/

theorem length_dropWhile_le (p : Char → Bool) (l : Str) :
    (l.dropWhile p).length ≤ l.length := by
  induction l with
  | nil => simp [List.dropWhile]
  | cons c cs ih =>
    simp only [List.dropWhile]
    split
    · exact Nat.le_succ_of_le ih
    · exact Nat.le_refl _

theorem matchAt_rem_lt {cs w k v rem : Str}
    (h : matchAt cs = some (w, k, v, rem)) : rem.length < cs.length := by
  unfold matchAt at h
  split at h
  · exact absurd h (by simp)
  · rename_i c r2 hr1
    split at h
    · split at h
      · rename_i r5 hr4
        split at h
        · rename_i r7 hr6
          split at h
          · rename_i r9 hr8
            simp only [Option.some.injEq, Prod.mk.injEq] at h
            have h1 : rem.length ≤ r9.length := by
              rw [← h.2.2.2]; exact length_dropWhile_le _ _
            have h2 : r9.length <
                (r7.dropWhile (fun c => c != '"')).length := by
              rw [hr8]; simp
            have h3 : (r7.dropWhile (fun c => c != '"')).length ≤
                r7.length := length_dropWhile_le _ _
            have h4 : r7.length < (r5.dropWhile isSpaceChar).length := by
              rw [hr6]; simp
            have h5 : (r5.dropWhile isSpaceChar).length ≤ r5.length :=
              length_dropWhile_le _ _
            have h6 : r5.length <
                ((r2.dropWhile isKeyChar).dropWhile isSpaceChar).length := by
              rw [hr4]; simp
            have h7 : ((r2.dropWhile isKeyChar).dropWhile
                isSpaceChar).length ≤ r2.length :=
              Nat.le_trans (length_dropWhile_le _ _)
                (length_dropWhile_le _ _)
            have h8 : r2.length < (cs.dropWhile isSpaceChar).length := by
              rw [hr1]; simp
            have h9 : (cs.dropWhile isSpaceChar).length ≤ cs.length :=
              length_dropWhile_le _ _
            omega
          · exact absurd h (by simp)
        · exact absurd h (by simp)
      · exact absurd h (by simp)
    · exact absurd h (by simp)

theorem findAllGo_succ (fuel : Nat) (cs : Str) :
    findAllGo (fuel + 1) cs =
      match matchAt cs with
      | some (w, k, v, rem) => (w, k, v) :: findAllGo fuel rem
      | none =>
        match cs with
        | [] => []
        | _ :: rest => findAllGo fuel rest := rfl

theorem findAllGo_congr :
    ∀ {n : Nat} {m : Nat} {cs : Str}, cs.length < n → cs.length < m →
      findAllGo n cs = findAllGo m cs := by
  intro n
  induction n with
  | zero => intro m cs h _; omega
  | succ n ih =>
    intro m cs hn hm
    cases m with
    | zero => omega
    | succ m =>
      rw [findAllGo_succ, findAllGo_succ]
      cases hmatch : matchAt cs with
      | some res =>
        obtain ⟨w, k, v, rem⟩ := res
        have hrem := matchAt_rem_lt hmatch
        have heq : findAllGo n rem = findAllGo m rem :=
          ih (by omega) (by omega)
        simp only [heq]
      | none =>
        cases cs with
        | nil => rfl
        | cons c rest =>
          simp only [List.length_cons] at hn hm
          have heq : findAllGo n rest = findAllGo m rest :=
            ih (by omega) (by omega)
          simp only [heq]

theorem findAllSub_nil : findAllSub [] = [] := rfl

theorem findAllSub_some {cs w k v rem : Str}
    (h : matchAt cs = some (w, k, v, rem)) :
    findAllSub cs = (w, k, v) :: findAllSub rem := by
  have hrem := matchAt_rem_lt h
  unfold findAllSub
  rw [findAllGo_succ, h]
  have heq : findAllGo cs.length rem = findAllGo (rem.length + 1) rem :=
    findAllGo_congr (by omega) (by omega)
  simp only [heq]

theorem findAllSub_none {c : Char} {rest : Str}
    (h : matchAt (c :: rest) = none) :
    findAllSub (c :: rest) = findAllSub rest := by
  unfold findAllSub
  rw [findAllGo_succ, h]
  simp only [List.length_cons]

theorem takeWhile_append_stop {p : Char → Bool} :
    ∀ {xs ys : Str}, (∀ x ∈ xs, p x = true) →
      (∀ c, ys.head? = some c → p c = false) →
      (xs ++ ys).takeWhile p = xs := by
  intro xs
  induction xs with
  | nil =>
    intro ys _ hys
    cases ys with
    | nil => rfl
    | cons y t =>
      simp only [List.nil_append, List.takeWhile_cons]
      rw [hys y rfl]
      simp
  | cons x xs ih =>
    intro ys hxs hys
    simp only [List.cons_append, List.takeWhile_cons]
    rw [hxs x (List.mem_cons_self x xs)]
    simp only [if_true, List.cons.injEq, true_and]
    exact ih (fun a ha => hxs a (List.mem_cons_of_mem x ha)) hys

theorem dropWhile_append_stop {p : Char → Bool} :
    ∀ {xs ys : Str}, (∀ x ∈ xs, p x = true) →
      (∀ c, ys.head? = some c → p c = false) →
      (xs ++ ys).dropWhile p = ys := by
  intro xs
  induction xs with
  | nil =>
    intro ys _ hys
    cases ys with
    | nil => rfl
    | cons y t =>
      simp only [List.nil_append, List.dropWhile_cons]
      rw [hys y rfl]
      simp
  | cons x xs ih =>
    intro ys hxs hys
    simp only [List.cons_append, List.dropWhile_cons]
    rw [hxs x (List.mem_cons_self x xs)]
    simp only [if_true]
    exact ih (fun a ha => hxs a (List.mem_cons_of_mem x ha)) hys

theorem space_not_keyStart {c : Char} (h : isSpaceChar c = true) :
    isKeyStart c = false := by
  simp only [isSpaceChar, Bool.or_eq_true, beq_iff_eq] at h
  rcases h with ((((h | h) | h) | h) | h) <;> subst h <;> decide

theorem keyStart_not_space {c : Char} (h : isKeyStart c = true) :
    isSpaceChar c = false := by
  cases hs : isSpaceChar c with
  | false => rfl
  | true => rw [space_not_keyStart hs] at h; exact absurd h (by simp)

theorem hasPre_append (xs ys : Str) : hasPre (xs ++ ys) xs = true := by
  induction xs with
  | nil => cases ys <;> rfl
  | cons x xs ih => simpa [hasPre] using ih

theorem trimPre_append (xs ys : Str) : trimPre (xs ++ ys) xs = ys := by
  unfold trimPre
  rw [hasPre_append]
  simp

theorem alLookup_mapInsert {α : Type} (d : List (Str × α)) (k : Str)
    (v : α) (key : Str) :
    alLookup (mapInsert d k v) key =
      if k = key then some v else alLookup d key := by
  induction d with
  | nil => simp [mapInsert, alLookup]
  | cons kv rest ih =>
    obtain ⟨k', v'⟩ := kv
    by_cases hk : k' = k
    · subst hk
      simp only [mapInsert, if_pos rfl]
      by_cases hkey : k' = key
      · subst hkey; simp [alLookup]
      · simp [alLookup, hkey]
    · simp only [mapInsert, if_neg hk]
      by_cases hkey : k' = key
      · subst hkey
        have hk2 : k ≠ k' := fun h => hk h.symm
        simp [alLookup, if_neg hk2]
      · simp [alLookup, hkey, ih]

theorem mapInsert_idem {α : Type} (d : List (Str × α)) (k : Str) (v : α) :
    mapInsert (mapInsert d k v) k v = mapInsert d k v := by
  induction d with
  | nil => simp [mapInsert]
  | cons kv rest ih =>
    obtain ⟨k', v'⟩ := kv
    by_cases hk : k' = k
    · subst hk; simp [mapInsert]
    · simp [mapInsert, if_neg hk, ih]

theorem matchAt_render {k v rest : Str} (hk : isIdentKey k = true)
    (hv : v.all (fun c => c != '"') = true)
    (hrest : ∀ c, rest.head? = some c → isSpaceChar c = false) :
    matchAt (renderAssign (k, v) ++ rest) =
      some (renderAssign (k, v), k, v, rest) := by
  cases k with
  | nil => exact absurd hk (by simp [isIdentKey])
  | cons c0 ks =>
    simp only [isIdentKey, Bool.and_eq_true] at hk
    obtain ⟨hc0, hks⟩ := hk
    have hksm : ∀ x ∈ ks, isKeyChar x = true := by
      intro x hx; exact List.all_eq_true.mp hks x hx
    have hvm : ∀ x ∈ v, (x != '"') = true := by
      intro x hx; exact List.all_eq_true.mp hv x hx
    have hcs : renderAssign (c0 :: ks, v) ++ rest =
        c0 :: (ks ++ ('=' :: '"' :: (v ++ ('"' :: ' ' :: rest)))) := by
      simp [renderAssign]
    rw [hcs]
    have hnospace : isSpaceChar c0 = false := keyStart_not_space hc0
    have h1 : (c0 :: (ks ++ ('=' :: '"' :: (v ++ ('"' :: ' ' :: rest))))
        ).dropWhile isSpaceChar =
        c0 :: (ks ++ ('=' :: '"' :: (v ++ ('"' :: ' ' :: rest)))) := by
      rw [List.dropWhile_cons, hnospace]; simp
    have h1t : (c0 :: (ks ++ ('=' :: '"' :: (v ++ ('"' :: ' ' :: rest))))
        ).takeWhile isSpaceChar = [] := by
      rw [List.takeWhile_cons, hnospace]; simp
    have h2 : (ks ++ ('=' :: '"' :: (v ++ ('"' :: ' ' :: rest)))
        ).dropWhile isKeyChar =
        '=' :: '"' :: (v ++ ('"' :: ' ' :: rest)) :=
      dropWhile_append_stop hksm
        (by intro c hc; simp only [List.head?] at hc
            cases hc; decide)
    have h2t : (ks ++ ('=' :: '"' :: (v ++ ('"' :: ' ' :: rest)))
        ).takeWhile isKeyChar = ks :=
      takeWhile_append_stop hksm
        (by intro c hc; simp only [List.head?] at hc
            cases hc; decide)
    have h3 : ('=' :: '"' :: (v ++ ('"' :: ' ' :: rest))
        ).dropWhile isSpaceChar =
        '=' :: '"' :: (v ++ ('"' :: ' ' :: rest)) := by
      rw [List.dropWhile_cons,
        show isSpaceChar '=' = false from by decide]
      simp
    have h3t : ('=' :: '"' :: (v ++ ('"' :: ' ' :: rest))
        ).takeWhile isSpaceChar = [] := by
      rw [List.takeWhile_cons,
        show isSpaceChar '=' = false from by decide]
      simp
    have h4 : ('"' :: (v ++ ('"' :: ' ' :: rest))).dropWhile isSpaceChar =
        '"' :: (v ++ ('"' :: ' ' :: rest)) := by
      rw [List.dropWhile_cons,
        show isSpaceChar '\x22' = false from by decide]
      simp
    have h4t : ('"' :: (v ++ ('"' :: ' ' :: rest))).takeWhile isSpaceChar =
        [] := by
      rw [List.takeWhile_cons,
        show isSpaceChar '\x22' = false from by decide]
      simp
    have h5 : (v ++ ('"' :: ' ' :: rest)).dropWhile (fun c => c != '"') =
        '"' :: ' ' :: rest :=
      dropWhile_append_stop hvm
        (by intro c hc; simp only [List.head?] at hc
            cases hc; decide)
    have h5t : (v ++ ('"' :: ' ' :: rest)).takeWhile (fun c => c != '"') =
        v :=
      takeWhile_append_stop hvm
        (by intro c hc; simp only [List.head?] at hc
            cases hc; decide)
    have h6 : (' ' :: rest).dropWhile isSpaceChar = rest := by
      rw [List.dropWhile_cons]
      simp only [show isSpaceChar ' ' = true from by decide, if_true]
      cases rest with
      | nil => rfl
      | cons r rs =>
        rw [List.dropWhile_cons, hrest r rfl]
        simp
    have h6t : (' ' :: rest).takeWhile isSpaceChar = [' '] := by
      rw [List.takeWhile_cons]
      simp only [show isSpaceChar ' ' = true from by decide, if_true]
      cases rest with
      | nil => rfl
      | cons r rs =>
        rw [List.takeWhile_cons, hrest r rfl]
        simp
    simp only [matchAt, h1, h1t, hc0, if_true, h2, h2t, h3, h3t, h4, h4t,
      h5, h5t, h6, h6t]
    simp [renderAssign]

theorem renderAssigns_head_not_space {l : List (Str × Str)}
    (hl : ∀ kv ∈ l, goodAssign kv = true) :
    ∀ c, (renderAssigns l).head? = some c → isSpaceChar c = false := by
  cases l with
  | nil => intro c hc; simp [renderAssigns] at hc
  | cons kv rest =>
    intro c hc
    have hg := hl kv (List.mem_cons_self kv rest)
    simp only [goodAssign, Bool.and_eq_true] at hg
    obtain ⟨k, v⟩ := kv
    cases k with
    | nil => exact absurd hg.1 (by simp [isIdentKey])
    | cons c0 ks =>
      have hre : renderAssigns ((c0 :: ks, v) :: rest) =
          c0 :: (ks ++ ('=' :: '"' :: (v ++
            ('"' :: ' ' :: renderAssigns rest)))) := by
        simp [renderAssigns, renderAssign]
      rw [hre] at hc
      simp only [List.head?, Option.some.injEq] at hc
      subst hc
      have hc0 : isKeyStart c0 = true := by
        have := hg.1
        simp only [isIdentKey, Bool.and_eq_true] at this
        exact this.1
      exact keyStart_not_space hc0

theorem findAllSub_render :
    ∀ {l : List (Str × Str)}, (∀ kv ∈ l, goodAssign kv = true) →
      findAllSub (renderAssigns l) = l.map mkSubMatch := by
  intro l
  induction l with
  | nil => intro _; exact findAllSub_nil
  | cons kv rest ih =>
    intro hl
    obtain ⟨k, v⟩ := kv
    have hg := hl (k, v) (List.mem_cons_self _ rest)
    simp only [goodAssign, Bool.and_eq_true] at hg
    have hrestgood : ∀ kv ∈ rest, goodAssign kv = true :=
      fun a ha => hl a (List.mem_cons_of_mem _ ha)
    have hm := matchAt_render hg.1 hg.2
      (renderAssigns_head_not_space hrestgood)
    have hre : renderAssigns ((k, v) :: rest) =
        renderAssign (k, v) ++ renderAssigns rest := rfl
    rw [hre, findAllSub_some hm, ih hrestgood]
    rfl

theorem matchAt_all_space {w : Str} (hw : w.all isSpaceChar = true) :
    matchAt w = none := by
  have hdrop : w.dropWhile isSpaceChar = [] := by
    induction w with
    | nil => rfl
    | cons c cs ih =>
      simp only [List.all_cons, Bool.and_eq_true] at hw
      rw [List.dropWhile_cons, hw.1]
      simp only [if_true]
      exact ih hw.2
  simp [matchAt, hdrop]

theorem findAllSub_all_space {w : Str} (hw : w.all isSpaceChar = true) :
    findAllSub w = [] := by
  induction w with
  | nil => exact findAllSub_nil
  | cons c cs ih =>
    simp only [List.all_cons, Bool.and_eq_true] at hw
    rw [findAllSub_none (matchAt_all_space (by simp [hw.1, hw.2]))]
    exact ih hw.2

theorem getSetter_of_resolve {T : Type} {s : MultiSetterBase T}
    {k ck : Str} {evs : EntryValSetter T} (i : Nat)
    (h : resolveEvs s k = some (ck, evs)) :
    getSetter s i k = (ck, evs, none) := by
  unfold resolveEvs at h
  unfold getSetter
  cases h1 : alLookup s.entryValSetterMap k with
  | some e =>
    simp only [h1, Option.some.injEq, Prod.mk.injEq] at h ⊢
    simp [h.1, h.2]
  | none =>
    simp only [h1] at h ⊢
    cases h2 : alLookup s.entryValSMAliases k with
    | none => simp only [h2] at h; exact absurd h (by simp)
    | some aliasKey =>
      simp only [h2] at h ⊢
      cases h3 : alLookup s.entryValSetterMap aliasKey with
      | none => simp only [h3] at h; exact absurd h (by simp)
      | some e =>
        simp only [h3, Option.some.injEq, Prod.mk.injEq] at h ⊢
        simp [h.1, h.2]

theorem processSubVals_render {T : Type} (s : MultiSetterBase T) :
    ∀ (l : List (Str × Str)) (t : T) (i : Nat) (d : List (Str × Str)),
      (∀ kv ∈ l, goodAssign kv = true) →
      processSubVals s t (renderAssigns l) i (l.map mkSubMatch) d =
        (match processRender s t i l d with
         | (t', lrest, d', e) => (t', renderAssigns lrest, d', e)) := by
  intro l
  induction l with
  | nil => intro t i d _; rfl
  | cons kv rest ih =>
    intro t i d hl
    have hre : renderAssigns (kv :: rest) =
        renderAssign kv ++ renderAssigns rest := rfl
    simp only [List.map_cons, processSubVals, processRender, hre,
      setWithSubval, mkSubMatch, hasPre_append, trimPre_append]
    simp only [show (true = false) = False from by simp, if_neg
      (fun h : False => h)]
    cases hgs : getSetter s i kv.1 with
    | mk ck p =>
      obtain ⟨evs, err⟩ := p
      cases err with
      | some e => dsimp only
      | none =>
        dsimp only
        cases hdl : alLookup d ck with
        | some prev => dsimp only
        | none =>
          dsimp only
          cases hset : evs.setWithVal ck kv.2 t with
          | error e => dsimp only
          | ok t' =>
            dsimp only
            cases hpost : runPostActions evs.postActionFuncs ck kv.2 with
            | some e => dsimp only
            | none =>
              dsimp only
              exact ih t' (i + 1) (mapInsert d ck (renderAssign kv))
                (fun a ha => hl a (List.mem_cons_of_mem _ ha))

theorem processRender_append {T : Type} (s : MultiSetterBase T) :
    ∀ (l₁ l₂ : List (Str × Str)) (t : T) (i : Nat)
      (d : List (Str × Str)),
      processRender s t i (l₁ ++ l₂) d =
        (match processRender s t i l₁ d with
         | (t', lrest, d', some e) => (t', lrest ++ l₂, d', some e)
         | (t', _, d', none) =>
           processRender s t' (i + l₁.length) l₂ d') := by
  intro l₁
  induction l₁ with
  | nil =>
    intro l₂ t i d
    dsimp only [List.nil_append, processRender]
    simp
  | cons kv rest ih =>
    intro l₂ t i d
    dsimp only [List.cons_append, processRender]
    cases hgs : getSetter s i kv.1 with
    | mk ck p =>
      obtain ⟨evs, err⟩ := p
      cases err with
      | some e => dsimp only
      | none =>
        dsimp only
        cases hdl : alLookup d ck with
        | some prev => dsimp only
        | none =>
          dsimp only
          cases hset : evs.setWithVal ck kv.2 t with
          | error e => dsimp only
          | ok t' =>
            dsimp only
            cases hpost : runPostActions evs.postActionFuncs ck kv.2 with
            | some e => dsimp only
            | none =>
              dsimp only
              rw [ih l₂ t' (i + 1) (mapInsert d ck (renderAssign kv))]
              have harith : i + 1 + rest.length = i + (rest.length + 1) := by
                omega
              rw [harith]
              simp

theorem processRender_ok {T : Type} (s : MultiSetterBase T) :
    ∀ (l : List (Str × Str)) (t tF : T) (i : Nat)
      (d : List (Str × Str)),
      (∀ kv ∈ l, ∀ ck, resolveCanon s kv.1 = some ck →
        alLookup d ck = none) →
      (l.map (fun kv => resolveCanon s kv.1)).Nodup →
      applyAssigns s l t = some tF →
      processRender s t i l d = (tF, [], renderDups s l d, none) := by
  intro l
  induction l with
  | nil =>
    intro t tF i d _ _ happ
    simp only [applyAssigns, Option.some.injEq] at happ
    subst happ
    rfl
  | cons kv rest ih =>
    intro t tF i d hfresh hnodup happ
    simp only [applyAssigns] at happ
    cases hres : resolveEvs s kv.1 with
    | none =>
      simp only [hres] at happ
      exact absurd happ (by simp)
    | some p =>
      obtain ⟨ck, evs⟩ := p
      simp only [hres] at happ
      cases hset : evs.setWithVal ck kv.2 t with
      | error e =>
        simp only [hset] at happ
        exact absurd happ (by simp)
      | ok t' =>
        simp only [hset] at happ
        cases hpost : runPostActions evs.postActionFuncs ck kv.2 with
        | some e =>
          simp only [hpost] at happ
          exact absurd happ (by simp)
        | none =>
          simp only [hpost] at happ
          have hck : resolveCanon s kv.1 = some ck := by
            simp [resolveCanon, hres]
          have hdl : alLookup d ck = none :=
            hfresh kv (List.mem_cons_self kv rest) ck hck
          rw [List.map_cons] at hnodup
          have hpair := List.nodup_cons.mp hnodup
          have hnodup' :
              (rest.map (fun kv => resolveCanon s kv.1)).Nodup := hpair.2
          have hnotin :
              some ck ∉ rest.map (fun kv => resolveCanon s kv.1) := by
            have := hpair.1
            rwa [hck] at this
          have hfresh' : ∀ kv' ∈ rest, ∀ ck',
              resolveCanon s kv'.1 = some ck' →
              alLookup (mapInsert d ck (renderAssign kv)) ck' = none := by
            intro kv' hkv' ck' hck'
            rw [alLookup_mapInsert]
            have hne : ck ≠ ck' := by
              intro heq
              subst heq
              exact hnotin (by
                exact List.mem_map.mpr ⟨kv', hkv', hck'⟩)
            rw [if_neg hne]
            exact hfresh kv' (List.mem_cons_of_mem kv hkv') ck' hck'
          have hstep := ih t' tF (i + 1)
            (mapInsert d ck (renderAssign kv)) hfresh' hnodup' happ
          simp only [processRender, getSetter_of_resolve i hres, hdl,
            hset, hpost]
          rw [hstep]
          simp only [renderDups, hck]

theorem renderDups_lookup {T : Type} (s : MultiSetterBase T) :
    ∀ (l : List (Str × Str)) (d : List (Str × Str)),
      (∀ kv ∈ l, (resolveCanon s kv.1).isSome = true) →
      ∀ x, (alLookup (renderDups s l d) x).isSome = true ↔
        ((alLookup d x).isSome = true ∨
          some x ∈ l.map (fun kv => resolveCanon s kv.1)) := by
  intro l
  induction l with
  | nil =>
    intro d _ x
    simp [renderDups]
  | cons kv rest ih =>
    intro d hres x
    cases hck : resolveCanon s kv.1 with
    | none =>
      have := hres kv (List.mem_cons_self kv rest)
      rw [hck] at this
      exact absurd this (by simp)
    | some ck =>
      simp only [renderDups, hck]
      rw [ih (mapInsert d ck (renderAssign kv))
        (fun a ha => hres a (List.mem_cons_of_mem kv ha)) x]
      rw [alLookup_mapInsert]
      by_cases hx : ck = x
      · subst hx
        simp [hck]
      · rw [if_neg hx]
        simp only [List.map_cons, List.mem_cons, hck]
        constructor
        · intro h
          rcases h with h | h
          · exact Or.inl h
          · exact Or.inr (Or.inr h)
        · intro h
          rcases h with h | h | h
          · exact Or.inl h
          · exact absurd (Option.some.inj h).symm hx
          · exact Or.inr h

theorem findUnsetMandatory_none {T : Type} :
    ∀ (smap : List (Str × EntryValSetter T)) (dups : List (Str × Str)),
      (∀ kv ∈ smap, kv.2.mustBeSet = true →
        (alLookup dups kv.1).isSome = true) →
      findUnsetMandatory smap dups = none := by
  intro smap
  induction smap with
  | nil => intro dups _; rfl
  | cons kv rest ih =>
    intro dups h
    obtain ⟨k, evs⟩ := kv
    simp only [findUnsetMandatory]
    have hcond : (evs.mustBeSet && (alLookup dups k).isNone) = false := by
      cases hm : evs.mustBeSet with
      | false => simp
      | true =>
        have := h (k, evs) (List.mem_cons_self _ rest) hm
        simp only [Bool.true_and]
        cases hl : alLookup dups k with
        | none => rw [hl] at this; exact absurd this (by simp)
        | some v => simp
    rw [hcond]
    simp only [if_neg (by simp : ¬ (false = true))]
    exact ih dups (fun a ha => h a (List.mem_cons_of_mem _ ha))

theorem cutEq_append {name : Str} (rest : Str) (h : '=' ∉ name) :
    cutEq (name ++ '=' :: rest) = (name, rest, true) := by
  induction name with
  | nil => simp [cutEq]
  | cons c cs ih =>
    have hc : ¬ (c = '=') := fun hc => h (hc ▸ List.mem_cons_self c cs)
    have hcs : '=' ∉ cs := fun hm => h (List.mem_cons_of_mem c hm)
    simp only [List.cons_append, cutEq, if_neg hc, List.append_eq, ih hcs]

theorem cutEq_no_eq {name : Str} (h : '=' ∉ name) :
    cutEq name = (name, [], false) := by
  induction name with
  | nil => rfl
  | cons c cs ih =>
    have hc : ¬ (c = '=') := fun hc => h (hc ▸ List.mem_cons_self c cs)
    have hcs : '=' ∉ cs := fun hm => h (List.mem_cons_of_mem c hm)
    simp only [cutEq, if_neg hc, ih hcs]

theorem checkParamPartName_ok {T : Type} (s : MultiSetterBase T)
    {name : Str} (hne : name ≠ [])
    (hav : s.avals = [] ∨ (alLookup s.avals name).isSome = true) :
    checkParamPartName s name = none := by
  unfold checkParamPartName
  rw [if_neg hne]
  by_cases hlen : 0 < s.avals.length
  · rw [if_pos hlen]
    rcases hav with hav | hav
    · rw [hav] at hlen; simp at hlen
    · rw [if_pos hav]
  · rw [if_neg hlen]

theorem applyAssigns_resolve {T : Type} (s : MultiSetterBase T) :
    ∀ (l : List (Str × Str)) (t tF : T),
      applyAssigns s l t = some tF →
      ∀ kv ∈ l, (resolveCanon s kv.1).isSome = true := by
  intro l
  induction l with
  | nil => intro t tF _ kv hkv; simp at hkv
  | cons kv0 rest ih =>
    intro t tF happ kv hkv
    simp only [applyAssigns] at happ
    cases hres : resolveEvs s kv0.1 with
    | none =>
      simp only [hres] at happ
      exact absurd happ (by simp)
    | some p =>
      obtain ⟨ck, evs⟩ := p
      simp only [hres] at happ
      cases hset : evs.setWithVal ck kv0.2 t with
      | error e =>
        simp only [hset] at happ
        exact absurd happ (by simp)
      | ok t' =>
        simp only [hset] at happ
        cases hpost : runPostActions evs.postActionFuncs ck kv0.2 with
        | some e =>
          simp only [hpost] at happ
          exact absurd happ (by simp)
        | none =>
          simp only [hpost] at happ
          rcases List.mem_cons.mp hkv with heq | hmem
          · subst heq
            simp [resolveCanon, hres]
          · exact ih t' tF happ kv hmem

theorem getNamedValue_err_name {T : Type} [Inhabited T]
    (s : MultiSetterBase T) {pv : Str} {e : MSError}
    (hname : checkParamPartName s (cutEq pv).1 = some e) :
    GetNamedValue s pv = (s, zeroNamedValue T, some e) := by
  unfold GetNamedValue
  simp only [hname]

theorem getNamedValue_no_eq {T : Type} [Inhabited T]
    (s : MultiSetterBase T) {pv name : Str}
    (hcut : cutEq pv = (name, [], false))
    (hname : checkParamPartName s name = none) :
    GetNamedValue s pv =
      (s, { name := name, value := s.dfltEntryVal }, none) := by
  unfold GetNamedValue
  simp only [hcut, hname]
  simp

theorem getNamedValue_main {T : Type} [Inhabited T]
    (s : MultiSetterBase T) {pv name val : Str}
    (hcut : cutEq pv = (name, val, true))
    (hname : checkParamPartName s name = none) :
    GetNamedValue s pv =
      (if (findAllSub val).length = 0 then
         ({ s with entryVal := s.dfltEntryVal }, zeroNamedValue T,
           some (MSError.cannotGetValues val))
       else
         match processSubVals s s.dfltEntryVal val 0 (findAllSub val) []
           with
         | (t, _, _, some e) =>
           ({ s with entryVal := t }, zeroNamedValue T, some e)
         | (t, valRem, dups, none) =>
           match findUnsetMandatory s.entryValSetterMap dups with
           | some k =>
             ({ s with entryVal := t }, zeroNamedValue T,
               some (MSError.mustBeSetError k))
           | none =>
             if valRem.length ≠ 0 then
               ({ s with entryVal := t }, zeroNamedValue T,
                 some (MSError.unexpectedTrailingText valRem))
             else
               ({ s with entryVal := t }, { name := name, value := t },
                 none)) := by
  unfold GetNamedValue
  simp only [hcut, hname]
  simp

theorem getNamedValue_render_ok {T : Type} [Inhabited T]
    (s : MultiSetterBase T) {name : Str} {l : List (Str × Str)} {tF : T}
    (hname1 : '=' ∉ name) (hname2 : name ≠ [])
    (hav : s.avals = [] ∨ (alLookup s.avals name).isSome = true)
    (hl : l ≠ [])
    (hgood : ∀ kv ∈ l, goodAssign kv = true)
    (hnodup : (l.map (fun kv => resolveCanon s kv.1)).Nodup)
    (happ : applyAssigns s l s.dfltEntryVal = some tF)
    (hmand : ∀ kv ∈ s.entryValSetterMap, kv.2.mustBeSet = true →
      some kv.1 ∈ l.map (fun a => resolveCanon s a.1)) :
    GetNamedValue s (name ++ '=' :: renderAssigns l) =
      ({ s with entryVal := tF }, { name := name, value := tF },
        none) := by
  have hcut := cutEq_append (renderAssigns l) hname1
  have hnm := checkParamPartName_ok s hname2 hav
  rw [getNamedValue_main s hcut hnm, findAllSub_render hgood]
  rw [if_neg (by simp [hl])]
  rw [processSubVals_render s l s.dfltEntryVal 0 [] hgood]
  have hfresh : ∀ kv ∈ l, ∀ ck, resolveCanon s kv.1 = some ck →
      alLookup ([] : List (Str × Str)) ck = none := by
    intro _ _ _ _; rfl
  rw [processRender_ok s l s.dfltEntryVal tF 0 [] hfresh hnodup happ]
  dsimp only
  have hresolve := applyAssigns_resolve s l s.dfltEntryVal tF happ
  have hmand' : findUnsetMandatory s.entryValSetterMap
      (renderDups s l []) = none := by
    apply findUnsetMandatory_none
    intro kv hkv hmb
    exact (renderDups_lookup s l [] hresolve kv.1).mpr
      (Or.inr (hmand kv hkv hmb))
  rw [hmand']
  dsimp only [renderAssigns]
  simp

theorem cutEq_false_val_nil :
    ∀ {pv name val : Str}, cutEq pv = (name, val, false) → val = [] := by
  intro pv
  induction pv with
  | nil =>
    intro name val h
    simp only [cutEq, Prod.mk.injEq] at h
    exact h.2.1.symm
  | cons c cs ih =>
    intro name val h
    simp only [cutEq] at h
    split at h
    · simp only [Prod.mk.injEq] at h
      exact absurd h.2.2 (by simp)
    · simp only [Prod.mk.injEq] at h
      rw [← h.2.1]
      exact @ih (cutEq cs).1 (cutEq cs).2.1 (by rw [← h.2.2])

theorem setWithSubval_entryVal {T : Type} (s : MultiSetterBase T)
    (u t : T) (w : Str) (i : Nat) (sv : Str × Str × Str)
    (d : List (Str × Str)) :
    setWithSubval { s with entryVal := u } t w i sv d =
      setWithSubval s t w i sv d := rfl

theorem processSubVals_entryVal {T : Type} (s : MultiSetterBase T)
    (u : T) :
    ∀ (svs : List (Str × Str × Str)) (t : T) (w : Str) (i : Nat)
      (d : List (Str × Str)),
      processSubVals { s with entryVal := u } t w i svs d =
        processSubVals s t w i svs d := by
  intro svs
  induction svs with
  | nil => intro t w i d; rfl
  | cons sv rest ih =>
    intro t w i d
    simp only [processSubVals, setWithSubval_entryVal]
    cases hsv : setWithSubval s t w i sv d with
    | mk t' p =>
      obtain ⟨w', d', err⟩ := p
      cases err with
      | some e => dsimp only
      | none =>
        dsimp only
        exact ih t' w' (i + 1) d'

theorem getNamedValue_snd_entryVal {T : Type} [Inhabited T]
    (s : MultiSetterBase T) (u : T) (pv : Str) :
    (GetNamedValue { s with entryVal := u } pv).2 =
      (GetNamedValue s pv).2 := by
  cases hcut : cutEq pv with
  | mk name p =>
    obtain ⟨val, ok⟩ := p
    cases hcp : checkParamPartName s name with
    | some e =>
      have h1 : checkParamPartName { s with entryVal := u }
          (cutEq pv).1 = some e := by rw [hcut]; exact hcp
      have h2 : checkParamPartName s (cutEq pv).1 = some e := by
        rw [hcut]; exact hcp
      rw [getNamedValue_err_name _ h1, getNamedValue_err_name _ h2]
    | none =>
      cases ok with
      | false =>
        have hval : val = [] := cutEq_false_val_nil hcut
        subst hval
        have h1 : checkParamPartName { s with entryVal := u } name =
            none := hcp
        rw [getNamedValue_no_eq { s with entryVal := u } hcut h1,
          getNamedValue_no_eq s hcut hcp]
      | true =>
        have h1 : checkParamPartName { s with entryVal := u } name =
            none := hcp
        rw [getNamedValue_main { s with entryVal := u } hcut h1,
          getNamedValue_main s hcut hcp]
        dsimp only
        rw [processSubVals_entryVal]

theorem msb_upd_upd {T : Type} (s : MultiSetterBase T) (t u : T) :
    ({ { s with entryVal := t } with entryVal := u } :
      MultiSetterBase T) = { s with entryVal := u } := rfl

theorem msb_upd_dflt {T : Type} (s : MultiSetterBase T) (t : T) :
    ({ s with entryVal := t } : MultiSetterBase T).dfltEntryVal =
      s.dfltEntryVal := rfl

theorem msb_upd_smap {T : Type} (s : MultiSetterBase T) (t : T) :
    ({ s with entryVal := t } : MultiSetterBase T).entryValSetterMap =
      s.entryValSetterMap := rfl

theorem getNamedValue_config {T : Type} [Inhabited T]
    (s : MultiSetterBase T) (pv : Str)
    {s' : MultiSetterBase T} {nv : NamedValue T} {err : Option MSError}
    (h : GetNamedValue s pv = (s', nv, err)) :
    s' = { s with entryVal := s'.entryVal } := by
  simp only [GetNamedValue] at h
  split at h
  · simp only [Prod.mk.injEq] at h
    obtain ⟨h1, _, _⟩ := h
    subst h1; rfl
  · split at h
    · simp only [Prod.mk.injEq] at h
      obtain ⟨h1, _, _⟩ := h
      subst h1; rfl
    · split at h
      · simp only [Prod.mk.injEq] at h
        obtain ⟨h1, _, _⟩ := h
        subst h1; rfl
      · split at h
        · simp only [Prod.mk.injEq] at h
          obtain ⟨h1, _, _⟩ := h
          subst h1; rfl
        · split at h
          · simp only [Prod.mk.injEq] at h
            obtain ⟨h1, _, _⟩ := h
            subst h1; rfl
          · split at h
            · simp only [Prod.mk.injEq] at h
              obtain ⟨h1, _, _⟩ := h
              subst h1; rfl
            · simp only [Prod.mk.injEq] at h
              obtain ⟨h1, _, _⟩ := h
              subst h1; rfl

/-- C2: on every parse failure `GetNamedValue` returns the zero
`NamedValue` together with the error, and the `SetWithVal` methods of
the map-based and list-based setters leave the target container
exactly as it was before the call. -/
theorem c2_failure_atomicity {T : Type} [Inhabited T]
    (s : MultiSetterBase T) (m : MapMultiSetter T)
    (ls : ListMultiSetter T) (pv : Str) :
    (∀ s' nv e, GetNamedValue s pv = (s', nv, some e) →
      nv = zeroNamedValue T) ∧
    (∀ m' e, MapMultiSetter.SetWithVal m pv = (m', some e) →
      m'.value = m.value) ∧
    (∀ ls' e, ListMultiSetter.SetWithVal ls pv = (ls', some e) →
      ls'.value = ls.value) := by
  refine ⟨?_, ?_, ?_⟩
  · intro s' nv e h
    simp only [GetNamedValue] at h
    split at h
    · simp only [Prod.mk.injEq] at h
      exact h.2.1.symm
    · split at h
      · simp only [Prod.mk.injEq] at h
        exact absurd h.2.2 (by simp)
      · split at h
        · simp only [Prod.mk.injEq] at h
          exact h.2.1.symm
        · split at h
          · simp only [Prod.mk.injEq] at h
            exact h.2.1.symm
          · split at h
            · simp only [Prod.mk.injEq] at h
              exact h.2.1.symm
            · split at h
              · simp only [Prod.mk.injEq] at h
                exact h.2.1.symm
              · simp only [Prod.mk.injEq] at h
                exact absurd h.2.2 (by simp)
  · intro m' e h
    simp only [MapMultiSetter.SetWithVal] at h
    split at h
    · simp only [Prod.mk.injEq] at h
      obtain ⟨h1, _⟩ := h
      subst h1; rfl
    · simp only [Prod.mk.injEq] at h
      exact absurd h.2 (by simp)
  · intro ls' e h
    simp only [ListMultiSetter.SetWithVal] at h
    split at h
    · simp only [Prod.mk.injEq] at h
      obtain ⟨h1, _⟩ := h
      subst h1; rfl
    · simp only [Prod.mk.injEq] at h
      exact absurd h.2 (by simp)

theorem c2_witness :
    GetNamedValue cfgK (chars "a=") =
      ({ cfgK with entryVal := [] }, zeroNamedValue RecT,
        some (MSError.cannotGetValues [])) ∧
    zeroNamedValue RecT = zeroNamedValue RecT ∧
    MapMultiSetter.SetWithVal mapK (chars "a=") =
      ({ value := [], base := { cfgK with entryVal := [] } },
        some (MSError.cannotGetValues [])) ∧
    (MapMultiSetter.SetWithVal mapK (chars "a=")).1.value = mapK.value ∧
    (ListMultiSetter.SetWithVal listK (chars "a=")).1.value =
      listK.value := by
  have h := c2_failure_atomicity cfgK mapK listK (chars "a=")
  refine ⟨by rfl, ?_, by rfl, ?_, ?_⟩
  · exact h.1 { cfgK with entryVal := [] } (zeroNamedValue RecT)
      (MSError.cannotGetValues []) (by rfl)
  · exact h.2.1 (MapMultiSetter.SetWithVal mapK (chars "a=")).1
      (MSError.cannotGetValues []) (by rfl)
  · exact h.2.2 (ListMultiSetter.SetWithVal listK (chars "a=")).1
      (MSError.cannotGetValues []) (by rfl)

/-- C3: the claim says a bare name (no `=`) must still fail the
mandatory-field check when some descriptor is `MustBeSet`; the code
instead returns success with the default record before that check runs
(contradicting the `MustBeSet` documentation).  This theorem evaluates
the model at the failing input: with the single mandatory field `k`
unset the mandatory scan would report `k`, yet `GetNamedValue` on the
bare name `a` succeeds. -/
theorem c3_code_evaluation :
    findUnsetMandatory cfgM.entryValSetterMap [] = some (chars "k") ∧
    GetNamedValue cfgM (chars "a") =
      (cfgM, { name := chars "a", value := ([] : RecT) }, none) :=
  ⟨by rfl, by rfl⟩

/-- C5: the claim says the configuration check panics exactly on
canonical keys violating the identifier grammar.  The code tests keys
with the unanchored `evsKeyRE.MatchString`, which accepts any key
containing a single `[_a-zA-Z]` character anywhere: the key `a-b`
violates the grammar yet passes the check.  Keys that do match the
grammar always pass, as the claim states. -/
theorem c5_unanchored_key_check :
    evsKeyREMatchString (chars "a-b") = true ∧
    isIdentKey (chars "a-b") = false ∧
    keyCheckPanics (chars "a-b") = false ∧
    (∀ k, isIdentKey k = true →
      evsKeyREMatchString k = true ∧ keyCheckPanics k = false) := by
  refine ⟨by decide, by decide, by decide, ?_⟩
  intro k hk
  cases k with
  | nil => exact absurd hk (by simp [isIdentKey])
  | cons c rest =>
    simp only [isIdentKey, Bool.and_eq_true] at hk
    have hm : evsKeyREMatchString (c :: rest) = true := by
      simp only [evsKeyREMatchString, hk.1, Bool.true_or]
    exact ⟨hm, by simp [keyCheckPanics, hm]⟩

theorem c5_witness :
    isIdentKey (chars "ab") = true ∧
    evsKeyREMatchString (chars "ab") = true ∧
    keyCheckPanics (chars "ab") = false := by
  refine ⟨by decide, ?_, ?_⟩
  · exact (c5_unanchored_key_check.2.2.2 (chars "ab") (by decide)).1
  · exact (c5_unanchored_key_check.2.2.2 (chars "ab") (by decide)).2

/-- C9: when the parameter value contains `=` and the text after the
first `=` yields no assignment-pattern match -- in particular when it
is empty or only whitespace -- `GetNamedValue` fails with the
"cannot get any values" error even though no field is mandatory. -/
theorem c9_no_subvalue_match {T : Type} [Inhabited T]
    (s : MultiSetterBase T) {pv name val : Str}
    (hcut : cutEq pv = (name, val, true))
    (hname : checkParamPartName s name = none) :
    (findAllSub val = [] →
      GetNamedValue s pv =
        ({ s with entryVal := s.dfltEntryVal }, zeroNamedValue T,
          some (MSError.cannotGetValues val))) ∧
    (∀ w : Str, w.all isSpaceChar = true → findAllSub w = []) := by
  constructor
  · intro hempty
    rw [getNamedValue_main s hcut hname, hempty]
    simp
  · intro w hw
    exact findAllSub_all_space hw

theorem c9_witness :
    cutEq (chars "a=  ") = (chars "a", chars "  ", true) ∧
    (chars "  ").all isSpaceChar = true ∧
    GetNamedValue cfgK (chars "a=  ") =
      ({ cfgK with entryVal := [] }, zeroNamedValue RecT,
        some (MSError.cannotGetValues (chars "  "))) := by
  have hcut : cutEq (chars "a=  ") = (chars "a", chars "  ", true) := by
    decide
  have hnm : checkParamPartName cfgK (chars "a") = none := by rfl
  have h := c9_no_subvalue_match cfgK hcut hnm
  exact ⟨by decide, by decide, h.1 (h.2 (chars "  ") (by decide))⟩

theorem takeFinder_sound : ∀ (n : Nat) (q : Str) (pop : List Str),
    (takeFinder n q pop).length ≤ n ∧
    ∀ x ∈ takeFinder n q pop, x ∈ pop := by
  intro n q pop
  constructor
  · simp [takeFinder]
  · intro x hx
    exact List.mem_of_mem_take hx

/-- C6: raw-key resolution tries an exact canonical match first, then
an exact alias match whose target exists in the table; failing both it
reports the 1-based ordinal of the entry and fuzzy alternatives drawn
(by the external finder, here constrained only by its contract) from
the union of canonical and alias keys, at most `maxAltNames = 3` of
them. -/
theorem c6_resolution_order {T : Type} (s : MultiSetterBase T) (i : Nat)
    (k : Str)
    (hfinder : ∀ (n : Nat) (q : Str) (pop : List Str),
      (s.findNStrLike n q pop).length ≤ n ∧
      ∀ x ∈ s.findNStrLike n q pop, x ∈ pop) :
    (∀ evs, alLookup s.entryValSetterMap k = some evs →
      getSetter s i k = (k, evs, none)) ∧
    (∀ tgt evs, alLookup s.entryValSetterMap k = none →
      alLookup s.entryValSMAliases k = some tgt →
      alLookup s.entryValSetterMap tgt = some evs →
      getSetter s i k = (tgt, evs, none)) ∧
    (alLookup s.entryValSetterMap k = none →
      (∀ tgt, alLookup s.entryValSMAliases k = some tgt →
        alLookup s.entryValSetterMap tgt = none) →
      getSetter s i k = (k, nilEntryValSetter T,
        some (MSError.badSubValueName k (i + 1)
          (suggestAlternatives s.findNStrLike maxAltNames k
            (s.entryValSetterMap.map Prod.fst ++
              s.entryValSMAliases.map Prod.fst)))) ∧
      (suggestAlternatives s.findNStrLike maxAltNames k
        (s.entryValSetterMap.map Prod.fst ++
          s.entryValSMAliases.map Prod.fst)).length ≤ 3 ∧
      ∀ x ∈ suggestAlternatives s.findNStrLike maxAltNames k
        (s.entryValSetterMap.map Prod.fst ++
          s.entryValSMAliases.map Prod.fst),
        x ∈ s.entryValSetterMap.map Prod.fst ++
          s.entryValSMAliases.map Prod.fst) := by
  refine ⟨?_, ?_, ?_⟩
  · intro evs h
    unfold getSetter
    simp only [h]
  · intro tgt evs h1 h2 h3
    unfold getSetter
    simp only [h1, h2, h3]
  · intro h1 h2
    refine ⟨?_, (hfinder maxAltNames k _).1, (hfinder maxAltNames k _).2⟩
    unfold getSetter
    simp only [h1]
    cases h2' : alLookup s.entryValSMAliases k with
    | none => simp only []
    | some tgt =>
      simp only [h2 tgt h2']

theorem c6_witness :
    alLookup cfgAlias.entryValSetterMap (chars "alias") = none ∧
    alLookup cfgAlias.entryValSMAliases (chars "alias") =
      some (chars "k") ∧
    getSetter cfgAlias 1 (chars "alias") = (chars "k", recSetter, none) ∧
    getSetter cfgAlias 1 (chars "k") = (chars "k", recSetter, none) := by
  have hfinder : ∀ (n : Nat) (q : Str) (pop : List Str),
      (cfgAlias.findNStrLike n q pop).length ≤ n ∧
      ∀ x ∈ cfgAlias.findNStrLike n q pop, x ∈ pop :=
    fun n q pop => takeFinder_sound n q pop
  have h := c6_resolution_order cfgAlias 1 (chars "alias") hfinder
  have h2 := c6_resolution_order cfgAlias 1 (chars "k") hfinder
  refine ⟨by rfl, by rfl, ?_, ?_⟩
  · exact h.2.1 (chars "k") recSetter (by rfl) (by rfl) (by rfl)
  · exact h2.1 recSetter (by rfl)

/-- C1 (counterexample to the claim as stated): with a configuration
that passes the checks and has no mandatory field, the empty
field-list text after `=` is well-formed (zero assignments, so every
condition of the claim holds vacuously), yet `GetNamedValue` returns
the "cannot get any values" error instead of succeeding. -/
theorem c1_counterexample :
    (∀ kv ∈ cfgK.entryValSetterMap, kv.2.mustBeSet = false) ∧
    GetNamedValue cfgK (chars "a=") =
      ({ cfgK with entryVal := [] }, zeroNamedValue RecT,
        some (MSError.cannotGetValues [])) :=
  ⟨by decide, by rfl⟩

/-- C1 (amended: at least one assignment required): for every
configuration, every name passing the (possibly empty) allow-list
check, and every canonically rendered, non-empty, well-formed
assignment list whose assignments resolve to distinct canonical
fields, cover every mandatory field, and whose setters and
post-action callbacks all succeed, `GetNamedValue` succeeds and
returns the name paired with the record obtained from the configured
default by applying exactly the given assignments in order. -/
theorem c1_wellformed_parse_success {T : Type} [Inhabited T]
    (s : MultiSetterBase T) {name : Str} {l : List (Str × Str)} {tF : T}
    (hname1 : '=' ∉ name) (hname2 : name ≠ [])
    (hav : s.avals = [] ∨ (alLookup s.avals name).isSome = true)
    (hl : l ≠ [])
    (hgood : ∀ kv ∈ l, goodAssign kv = true)
    (hnodup : (l.map (fun kv => resolveCanon s kv.1)).Nodup)
    (happ : applyAssigns s l s.dfltEntryVal = some tF)
    (hmand : ∀ kv ∈ s.entryValSetterMap, kv.2.mustBeSet = true →
      some kv.1 ∈ l.map (fun a => resolveCanon s a.1)) :
    GetNamedValue s (name ++ '=' :: renderAssigns l) =
      ({ s with entryVal := tF }, { name := name, value := tF },
        none) :=
  getNamedValue_render_ok s hname1 hname2 hav hl hgood hnodup happ hmand

theorem c1_witness :
    applyAssigns cfgKM
      [(chars "k", chars "1"), (chars "m", chars "2")] [] =
      some [(chars "k", chars "1"), (chars "m", chars "2")] ∧
    GetNamedValue cfgKM
      (chars "a" ++ '=' :: renderAssigns
        [(chars "k", chars "1"), (chars "m", chars "2")]) =
      ({ cfgKM with entryVal :=
          [(chars "k", chars "1"), (chars "m", chars "2")] },
        { name := chars "a",
          value := [(chars "k", chars "1"), (chars "m", chars "2")] },
        none) := by
  refine ⟨by decide, ?_⟩
  exact c1_wellformed_parse_success cfgKM (by decide) (by decide)
    (Or.inl (by decide)) (by decide) (by decide) (by decide) (by decide)
    (by decide)

/-- C4: if the raw key of an assignment resolves to canonical key `k`
(directly or through an alias) and `k` has already been assigned by an
earlier assignment of the parameter value (under either spelling, with
no earlier failure), `GetNamedValue` fails with the
duplicate-assignment error keyed on `k`, carrying both raw assignment
texts and the 1-based ordinal of the second assignment; the value is
never accepted. -/
theorem c4_alias_duplicate {T : Type} [Inhabited T]
    (s : MultiSetterBase T) {name : Str} {l₀ l₂ : List (Str × Str)}
    {b v2 : Str} {t1 : T} {d1 : List (Str × Str)} {w1 k : Str}
    {evs : EntryValSetter T}
    (hname1 : '=' ∉ name) (hname2 : name ≠ [])
    (hav : s.avals = [] ∨ (alLookup s.avals name).isSome = true)
    (hgood : ∀ kv ∈ l₀ ++ (b, v2) :: l₂, goodAssign kv = true)
    (hpr : processRender s s.dfltEntryVal 0 l₀ [] = (t1, [], d1, none))
    (hres : resolveEvs s b = some (k, evs))
    (hdup : alLookup d1 k = some w1) :
    GetNamedValue s (name ++ '=' :: renderAssigns (l₀ ++ (b, v2) :: l₂))
      = ({ s with entryVal := t1 }, zeroNamedValue T,
          some (MSError.duplicateSubValue k w1 (renderAssign (b, v2))
            (l₀.length + 1))) := by
  have hcut := cutEq_append (renderAssigns (l₀ ++ (b, v2) :: l₂))
    hname1
  have hnm := checkParamPartName_ok s hname2 hav
  rw [getNamedValue_main s hcut hnm, findAllSub_render hgood]
  rw [if_neg (by simp)]
  rw [processSubVals_render s (l₀ ++ (b, v2) :: l₂) s.dfltEntryVal 0 []
    hgood]
  rw [processRender_append s l₀ ((b, v2) :: l₂) s.dfltEntryVal 0 []]
  rw [hpr]
  dsimp only
  rw [show processRender s t1 (0 + l₀.length) ((b, v2) :: l₂) d1 =
      (t1, l₂, d1, some (MSError.duplicateSubValue k w1
        (renderAssign (b, v2)) (0 + l₀.length + 1))) by
    simp only [processRender,
      getSetter_of_resolve (0 + l₀.length) hres, hdup]]
  dsimp only
  rw [show 0 + l₀.length + 1 = l₀.length + 1 by omega]

theorem c4_witness :
    processRender cfgAlias cfgAlias.dfltEntryVal 0
        [(chars "alias", chars "1")] [] =
      ([(chars "k", chars "1")], [],
        [(chars "k", renderAssign (chars "alias", chars "1"))], none) ∧
    resolveEvs cfgAlias (chars "k") = some (chars "k", recSetter) ∧
    GetNamedValue cfgAlias
      (chars "a" ++ '=' :: renderAssigns
        [(chars "alias", chars "1"), (chars "k", chars "2")]) =
      ({ cfgAlias with entryVal := [(chars "k", chars "1")] },
        zeroNamedValue RecT,
        some (MSError.duplicateSubValue (chars "k")
          (renderAssign (chars "alias", chars "1"))
          (renderAssign (chars "k", chars "2")) 2)) := by
  have hpr : processRender cfgAlias cfgAlias.dfltEntryVal 0
      [(chars "alias", chars "1")] [] =
      ([(chars "k", chars "1")], [],
        [(chars "k", renderAssign (chars "alias", chars "1"))], none) :=
    by decide
  have hres : resolveEvs cfgAlias (chars "k") =
      some (chars "k", recSetter) := by rfl
  have hdup : alLookup
      [(chars "k", renderAssign (chars "alias", chars "1"))]
      (chars "k") = some (renderAssign (chars "alias", chars "1")) :=
    by decide
  refine ⟨hpr, hres, ?_⟩
  exact @c4_alias_duplicate RecT _ cfgAlias (chars "a")
    [(chars "alias", chars "1")] [] (chars "k") (chars "2")
    [(chars "k", chars "1")]
    [(chars "k", renderAssign (chars "alias", chars "1"))]
    (renderAssign (chars "alias", chars "1")) (chars "k") recSetter
    (by decide) (by decide) (Or.inl (by decide)) (by decide) hpr hres
    hdup

/-- C7 (amended): when the tokenizer finds at least one match, the
loop consumes every match successfully and a non-empty remainder is
left, `GetNamedValue` always fails; the error is the unconsumed-text
(trailing garbage) error whenever every mandatory field was assigned
(otherwise the missing-mandatory error, reported first by the code,
takes precedence).  The remainder is never silently ignored. -/
theorem c7_trailing_text {T : Type} [Inhabited T]
    (s : MultiSetterBase T) {pv name val : Str}
    {ms : List (Str × Str × Str)} {t : T} {rem : Str}
    {d : List (Str × Str)}
    (hcut : cutEq pv = (name, val, true))
    (hname : checkParamPartName s name = none)
    (hms : findAllSub val = ms) (hmsne : ms ≠ [])
    (hloop : processSubVals s s.dfltEntryVal val 0 ms [] =
      (t, rem, d, none))
    (hrem : rem ≠ []) :
    ((GetNamedValue s pv).2.2).isSome = true ∧
    ((∀ kv ∈ s.entryValSetterMap, kv.2.mustBeSet = true →
        (alLookup d kv.1).isSome = true) →
      GetNamedValue s pv =
        ({ s with entryVal := t }, zeroNamedValue T,
          some (MSError.unexpectedTrailingText rem))) := by
  rw [getNamedValue_main s hcut hname, hms]
  rw [if_neg (by simp [hmsne])]
  rw [hloop]
  dsimp only
  constructor
  · cases findUnsetMandatory s.entryValSetterMap d with
    | some k => rfl
    | none =>
      dsimp only
      rw [if_pos (by simp [hrem])]
      rfl
  · intro hmand
    rw [findUnsetMandatory_none s.entryValSetterMap d hmand]
    dsimp only
    rw [if_pos (by simp [hrem])]

/-- C7 (counterexample to the claim as stated): on `a=k="1" xyz` with
field `m` mandatory and unset, all matches are consumed and the
non-empty remainder `xyz` is left, yet the reported error is the
missing-mandatory error for `m`, not the unconsumed-text error. -/
theorem c7_counterexample :
    processSubVals cfgKM cfgKM.dfltEntryVal (chars "k=\"1\" xyz") 0
        (findAllSub (chars "k=\"1\" xyz")) [] =
      ([(chars "k", chars "1")], chars "xyz",
        [(chars "k", chars "k=\"1\" ")], none) ∧
    chars "xyz" ≠ [] ∧
    GetNamedValue cfgKM (chars "a=k=\"1\" xyz") =
      ({ cfgKM with entryVal := [(chars "k", chars "1")] },
        zeroNamedValue RecT, some (MSError.mustBeSetError (chars "m")))
      ∧
    MSError.mustBeSetError (chars "m") ≠
      MSError.unexpectedTrailingText (chars "xyz") :=
  ⟨by decide, by decide, by rfl, by decide⟩

theorem c7_witness :
    findAllSub (chars "k=\"1\" xyz") ≠ [] ∧
    chars "xyz" ≠ [] ∧
    GetNamedValue cfgK (chars "a=k=\"1\" xyz") =
      ({ cfgK with entryVal := [(chars "k", chars "1")] },
        zeroNamedValue RecT,
        some (MSError.unexpectedTrailingText (chars "xyz"))) := by
  have hcut : cutEq (chars "a=k=\"1\" xyz") =
      (chars "a", chars "k=\"1\" xyz", true) := by decide
  have hnm : checkParamPartName cfgK (chars "a") = none := by rfl
  have hloop : processSubVals cfgK cfgK.dfltEntryVal
      (chars "k=\"1\" xyz") 0 (findAllSub (chars "k=\"1\" xyz")) [] =
      ([(chars "k", chars "1")], chars "xyz",
        [(chars "k", chars "k=\"1\" ")], none) := by decide
  have h := c7_trailing_text cfgK hcut hnm rfl (by decide) hloop
    (by decide)
  exact ⟨by decide, by decide, h.2 (by decide)⟩

/-- C8: after a successful parse, feeding the map-based setter the same
parameter value again succeeds and leaves the container (in particular
the entry for that name) unchanged; feeding the list-based setter the
same parameter value `n` times appends `n` equal `NamedValue` entries
in call order, with no deduplication. -/
theorem c8_adapter_semantics {T : Type} [Inhabited T]
    (m : MapMultiSetter T) (ls : ListMultiSetter T) (pv : Str) (n : Nat)
    (m1 : MapMultiSetter T) (ls1 : ListMultiSetter T)
    (hm : MapMultiSetter.SetWithVal m pv = (m1, none))
    (hls : ListMultiSetter.SetWithVal ls pv = (ls1, none)) :
    (MapMultiSetter.SetWithVal m1 pv).2 = none ∧
    (MapMultiSetter.SetWithVal m1 pv).1.value = m1.value ∧
    alLookup (MapMultiSetter.SetWithVal m1 pv).1.value
        ((GetNamedValue m.base pv).2.1).name =
      alLookup m1.value ((GetNamedValue m.base pv).2.1).name ∧
    (iterListSet ls pv n).2 = none ∧
    (iterListSet ls pv n).1.value =
      ls.value ++ List.replicate n ((GetNamedValue ls.base pv).2.1) := by
  simp only [MapMultiSetter.SetWithVal] at hm
  split at hm
  · simp only [Prod.mk.injEq] at hm
    exact absurd hm.2 (by simp)
  · rename_i b nv heq
    simp only [Prod.mk.injEq] at hm
    obtain ⟨hm1, _⟩ := hm
    subst hm1
    have hb := getNamedValue_config m.base pv heq
    have hsnd : (GetNamedValue b pv).2 = (nv, none) := by
      rw [hb, getNamedValue_snd_entryVal, heq]
    have h3 : GetNamedValue b pv = ((GetNamedValue b pv).1, nv, none) :=
      by
      conv_lhs => rw [show GetNamedValue b pv =
        ((GetNamedValue b pv).1, (GetNamedValue b pv).2) from rfl]
      rw [hsnd]
    have hmapstep :
        MapMultiSetter.SetWithVal
          ({ value := mapInsert m.value nv.name nv.value, base := b } :
            MapMultiSetter T) pv =
        ({ value := mapInsert (mapInsert m.value nv.name nv.value)
            nv.name nv.value,
           base := (GetNamedValue b pv).1 }, none) := by
      unfold MapMultiSetter.SetWithVal
      rw [h3]
    have hval : (MapMultiSetter.SetWithVal
        ({ value := mapInsert m.value nv.name nv.value, base := b } :
          MapMultiSetter T) pv).1.value =
        mapInsert m.value nv.name nv.value := by
      rw [hmapstep]
      exact mapInsert_idem m.value nv.name nv.value
    refine ⟨by rw [hmapstep], hval, by rw [hval], ?_⟩
    simp only [ListMultiSetter.SetWithVal] at hls
    split at hls
    · simp only [Prod.mk.injEq] at hls
      exact absurd hls.2 (by simp)
    · rename_i b2 nv2 heq2
      have key : ∀ (j : Nat) (u : T) (val0 : List (NamedValue T)),
          (iterListSet
            { value := val0, base := { ls.base with entryVal := u } }
            pv j).2 = none ∧
          (iterListSet
            { value := val0, base := { ls.base with entryVal := u } }
            pv j).1.value = val0 ++ List.replicate j nv2 := by
        intro j
        induction j with
        | zero =>
          intro u val0
          exact ⟨rfl, (List.append_nil val0).symm⟩
        | succ j ih =>
          intro u val0
          have hsnd2 : (GetNamedValue
              { ls.base with entryVal := u } pv).2 = (nv2, none) := by
            rw [getNamedValue_snd_entryVal, heq2]
          have h4 : GetNamedValue { ls.base with entryVal := u } pv =
              ((GetNamedValue { ls.base with entryVal := u } pv).1,
                nv2, none) := by
            conv_lhs => rw [show
              GetNamedValue { ls.base with entryVal := u } pv =
              ((GetNamedValue { ls.base with entryVal := u } pv).1,
               (GetNamedValue { ls.base with entryVal := u } pv).2)
              from rfl]
            rw [hsnd2]
          have hcfg := getNamedValue_config
            { ls.base with entryVal := u } pv h4
          simp only [iterListSet, ListMultiSetter.SetWithVal]
          rw [h4]
          dsimp only
          rw [hcfg, msb_upd_upd]
          have hstep := ih ((GetNamedValue
            { ls.base with entryVal := u } pv).1.entryVal)
            (val0 ++ [nv2])
          refine ⟨hstep.1, ?_⟩
          rw [hstep.2, List.append_assoc, List.replicate_succ]
          rfl
      have hmain := key n ls.base.entryVal ls.value
      have hnv2 : (GetNamedValue ls.base pv).2.1 = nv2 := by rw [heq2]
      rw [hnv2]
      exact hmain

theorem c8_witness :
    MapMultiSetter.SetWithVal mapK (chars "a=k=\"1\"") =
      ({ value := [(chars "a", [(chars "k", chars "1")])],
         base := { cfgK with entryVal := [(chars "k", chars "1")] } },
        none) ∧
    (MapMultiSetter.SetWithVal
      (MapMultiSetter.SetWithVal mapK (chars "a=k=\"1\"")).1
      (chars "a=k=\"1\"")).1.value =
      (MapMultiSetter.SetWithVal mapK (chars "a=k=\"1\"")).1.value ∧
    (iterListSet listK (chars "a=k=\"1\"") 3).2 = none ∧
    (iterListSet listK (chars "a=k=\"1\"") 3).1.value =
      List.replicate 3
        ({ name := chars "a", value := [(chars "k", chars "1")] } :
          NamedValue RecT) := by
  have hm : MapMultiSetter.SetWithVal mapK (chars "a=k=\"1\"") =
      ({ value := [(chars "a", [(chars "k", chars "1")])],
         base := { cfgK with entryVal := [(chars "k", chars "1")] } },
        none) := by rfl
  have hls : ListMultiSetter.SetWithVal listK (chars "a=k=\"1\"") =
      ({ value := [(⟨chars "a", [(chars "k", chars "1")]⟩ :
           NamedValue RecT)],
         base := { cfgK with entryVal := [(chars "k", chars "1")] } },
        none) := by rfl
  have h := c8_adapter_semantics mapK listK (chars "a=k=\"1\"") 3 _ _
    hm hls
  refine ⟨hm, ?_, h.2.2.2.1, h.2.2.2.2⟩
  rw [hm]
  exact h.2.1

/-- C10 (amended): after a failed parse that ran setters, the returned
receiver keeps the partially applied scratch record (only the returned
`NamedValue` is zeroed); a subsequent call whose value contains `=`
and passes the name check is insensitive to the stale scratch record
(it resets it to the default at the start), while a call without `=`
returns with the receiver, and hence the scratch record, untouched. -/
theorem c10_scratch_record {T : Type} [Inhabited T]
    (s : MultiSetterBase T) {pv name val : Str}
    (hcut : cutEq pv = (name, val, true))
    (hname : checkParamPartName s name = none) :
    (∀ t t', GetNamedValue { s with entryVal := t } pv =
      GetNamedValue { s with entryVal := t' } pv) ∧
    (∀ ms t1 rem d e, findAllSub val = ms → ms ≠ [] →
      processSubVals s s.dfltEntryVal val 0 ms [] =
        (t1, rem, d, some e) →
      GetNamedValue s pv =
        ({ s with entryVal := t1 }, zeroNamedValue T, some e)) ∧
    (∀ (pv2 name2 : Str), cutEq pv2 = (name2, [], false) →
      checkParamPartName s name2 = none →
      GetNamedValue s pv2 =
        (s, { name := name2, value := s.dfltEntryVal }, none)) := by
  refine ⟨?_, ?_, ?_⟩
  · intro t t'
    have h1 : checkParamPartName { s with entryVal := t } name = none :=
      hname
    have h2 : checkParamPartName { s with entryVal := t' } name =
      none := hname
    rw [getNamedValue_main _ hcut h1, getNamedValue_main _ hcut h2]
    simp only [msb_upd_dflt, msb_upd_smap, msb_upd_upd,
      processSubVals_entryVal]
  · intro ms t1 rem d e hms hmsne hloop
    rw [getNamedValue_main s hcut hname, hms,
      if_neg (by simp [hmsne]), hloop]
  · intro pv2 name2 hcut2 hname2
    exact getNamedValue_no_eq s hcut2 hname2

/-- C10 (counterexample to the claim as stated): a failed parse leaves
the scratch record partially applied, and the NEXT call -- here a bare
name with no `=` -- does NOT reset it to the default: the stale
partial record survives that call. -/
theorem c10_counterexample :
    (GetNamedValue cfgK (chars "a=k=\"1\" k=\"2\"")).2.2.isSome =
      true ∧
    (GetNamedValue cfgK (chars "a=k=\"1\" k=\"2\"")).1.entryVal =
      [(chars "k", chars "1")] ∧
    (GetNamedValue
        (GetNamedValue cfgK (chars "a=k=\"1\" k=\"2\"")).1
        (chars "a")).2.2 = none ∧
    (GetNamedValue
        (GetNamedValue cfgK (chars "a=k=\"1\" k=\"2\"")).1
        (chars "a")).1.entryVal = [(chars "k", chars "1")] ∧
    [(chars "k", chars "1")] ≠ cfgK.dfltEntryVal := by
  refine ⟨by decide, by decide, by decide, by decide, by decide⟩

theorem c10_witness :
    GetNamedValue { cfgK with entryVal := [(chars "z", chars "9")] }
        (chars "a=k=\"1\"") =
      GetNamedValue { cfgK with entryVal := [] } (chars "a=k=\"1\"") ∧
    GetNamedValue cfgK (chars "a=k=\"1\" k=\"2\"") =
      ({ cfgK with entryVal := [(chars "k", chars "1")] },
        zeroNamedValue RecT,
        some (MSError.duplicateSubValue (chars "k") (chars "k=\"1\" ")
          (chars "k=\"2\"") 2)) ∧
    GetNamedValue cfgK (chars "a") =
      (cfgK, { name := chars "a", value := [] }, none) := by
  have hcut1 : cutEq (chars "a=k=\"1\"") =
      (chars "a", chars "k=\"1\"", true) := by decide
  have hnm : checkParamPartName cfgK (chars "a") = none := by rfl
  have h1 := c10_scratch_record cfgK hcut1 hnm
  have hcut2 : cutEq (chars "a=k=\"1\" k=\"2\"") =
      (chars "a", chars "k=\"1\" k=\"2\"", true) := by decide
  have h2 := c10_scratch_record cfgK hcut2 hnm
  refine ⟨h1.1 [(chars "z", chars "9")] [], ?_, ?_⟩
  · exact h2.2.1 (findAllSub (chars "k=\"1\" k=\"2\""))
      [(chars "k", chars "1")] [] [(chars "k", chars "k=\"1\" ")]
      (MSError.duplicateSubValue (chars "k") (chars "k=\"1\" ")
        (chars "k=\"2\"") 2) rfl (by decide) (by decide)
  · exact h2.2.2 (chars "a") (chars "a") (by decide) (by rfl)
